import Mathlib

/-!
Verification of the Merkle tree engine in `merkle/merkle.go`
(`DefaultMerkleTree`: `AddLeaf`, `Root`, `GenerateProof`, `VerifyProof`).

Bytes are modelled as `Nat` (only equality of byte sequences matters to the
engine), a byte slice as `List Nat`, and the externally supplied hash
function (`HashFn`) as an arbitrary function `List Nat → List Nat`.
Go `int` indices are modelled as `Int`; Go's `/` and `%` on `int` truncate
toward zero, which is `Int.tdiv` / `Int.tmod`.

The Go methods `Root`, `GenerateProof` and `VerifyProof` assign to no field
of their receiver, so they are embedded as pure functions of the engine
state; the `...Op` wrappers return the (unchanged) state explicitly so that
frame properties can be stated.
-/

namespace Merkle

/-- `type HashFn func(data []byte) []byte`: the abstract hash capability. -/
abbrev HashFn : Type := List Nat → List Nat

/-- The odd-level padding step of `buildTree` / `GenerateProof`:
`if len(nodes)%2 != 0 { nodes = append(nodes, nodes[len(nodes)-1]) }`. -/
def padEven (level : List (List Nat)) : List (List Nat) :=
  if level.length % 2 ≠ 0 then level ++ [level.getLastD []] else level

/-- The pairing loop `for i := 0; i < len(nodes); i += 2 { ... H(nodes[i].Hash ++ nodes[i+1].Hash) ... }`
that combines consecutive pairs into the next level's hashes. -/
def pairUp (H : HashFn) : List (List Nat) → List (List Nat)
  | a :: b :: rest => H (a ++ b) :: pairUp H rest
  | _ => []

theorem pairUp_length (H : HashFn) : ∀ (l : List (List Nat)), (pairUp H l).length = l.length / 2
  | [] => by simp [pairUp]
  | [_] => by simp [pairUp]
  | _ :: _ :: rest => by
    simp only [pairUp, List.length_cons, pairUp_length H rest]
    omega

theorem padEven_length (l : List (List Nat)) :
    (padEven l).length = l.length + l.length % 2 := by
  unfold padEven
  rcases Nat.mod_two_eq_zero_or_one l.length with h | h <;> simp [h]

theorem padEven_length_mod (l : List (List Nat)) : (padEven l).length % 2 = 0 := by
  rw [padEven_length]; omega

theorem pairUp_padEven_length (H : HashFn) (l : List (List Nat)) :
    (pairUp H (padEven l)).length = (l.length + 1) / 2 := by
  rw [pairUp_length, padEven_length]; omega

theorem pairUp_padEven_length_lt (H : HashFn) (l : List (List Nat)) (h : 2 ≤ l.length) :
    (pairUp H (padEven l)).length < l.length := by
  rw [pairUp_padEven_length]; omega

/-- The `for len(nodes) > 1` loop of `buildTree`: fold levels bottom-up,
padding odd levels, until a single node remains; its hash is the root.
(`nodes[0]` on exit; the empty case is unreachable in `buildTree`.) -/
def buildRootAux (H : HashFn) (level : List (List Nat)) : List Nat :=
  match level with
  | [] => []
  | [x] => x
  | a :: b :: rest => buildRootAux H (pairUp H (padEven (a :: b :: rest)))
termination_by level.length
decreasing_by
  exact pairUp_padEven_length_lt H (a :: b :: rest) (by simp)

/-- `buildTree`: hash every stored leaf, then fold levels to the root;
`t.root = nil` (here `none`) when there are no leaves. -/
def buildTree (H : HashFn) (leaves : List (List Nat)) : Option (List Nat) :=
  let nodes := leaves.map H
  if nodes.isEmpty then none else some (buildRootAux H nodes)

/-- The engine state of `DefaultMerkleTree`: the ordered leaf list and the
stored root (`nil` ↦ `none`). The hash function field is passed explicitly
to each operation. -/
structure DefaultMerkleTree where
  leaves : List (List Nat)
  root : Option (List Nat)
deriving DecidableEq

/-- `NewDefaultMerkleTree`: empty leaf list, no root. -/
def NewDefaultMerkleTree : DefaultMerkleTree :=
  { leaves := [], root := none }

/-- `AddLeaf`: append the data to the leaf list and rebuild the tree. -/
def AddLeaf (H : HashFn) (t : DefaultMerkleTree) (data : List Nat) : DefaultMerkleTree :=
  let leaves := t.leaves ++ [data]
  { leaves := leaves, root := buildTree H leaves }

/-- `Root`: the stored root hash, `none` when `t.root == nil`. -/
def Root (t : DefaultMerkleTree) : Option (List Nat) :=
  t.root

/-- The `for numLeaves > 1` loop of `GenerateProof`: at each level, pad if
odd, record `level[index ^ 1]`, combine pairs, halve the index. The index is
a `Nat` here: `GenerateProof` has already checked `0 <= index`. -/
def generateProofAux (H : HashFn) (level : List (List Nat)) (index : Nat) :
    List (List Nat) :=
  match level with
  | [] => []
  | [_] => []
  | a :: b :: rest =>
    let padded := padEven (a :: b :: rest)
    padded.getD (index ^^^ 1) [] ::
      generateProofAux H (pairUp H padded) (index / 2)
termination_by level.length
decreasing_by
  exact pairUp_padEven_length_lt H (a :: b :: rest) (by simp)

/-- `GenerateProof`: reject `index < 0 || index >= len(t.leaves)` with the
error `"index out of bounds"`, else run the level loop over the re-hashed
leaves. -/
def GenerateProof (H : HashFn) (t : DefaultMerkleTree) (index : Int) :
    Except String (List (List Nat)) :=
  if index < 0 ∨ (t.leaves.length : Int) ≤ index then
    Except.error "index out of bounds"
  else
    Except.ok (generateProofAux H (t.leaves.map H) index.toNat)

/-- The `for _, sibling := range proof` loop of `VerifyProof`: combine the
running hash with each sibling — on the left when `index % 2 == 0`, on the
right otherwise — and halve the index, with Go's truncated `int` division. -/
def verifyAux (H : HashFn) (hash : List Nat) (index : Int) :
    List (List Nat) → List Nat
  | [] => hash
  | sibling :: rest =>
    let combined := if index.tmod 2 = 0 then hash ++ sibling else sibling ++ hash
    verifyAux H (H combined) (index.tdiv 2) rest

/-- `VerifyProof`: recompute the root from the leaf and the proof and compare
byte-for-byte (`string(hash) == string(root)`). -/
def VerifyProof (H : HashFn) (leaf : List Nat) (index : Int)
    (proof : List (List Nat)) (root : List Nat) : Bool :=
  verifyAux H (H leaf) index proof == root

/-- `Root` as a state transformer: the Go method writes no receiver field. -/
def RootOp (t : DefaultMerkleTree) : Option (List Nat) × DefaultMerkleTree :=
  (Root t, t)

/-- `GenerateProof` as a state transformer: the Go method writes no receiver
field (the level/proof variables are locals). -/
def GenerateProofOp (H : HashFn) (t : DefaultMerkleTree) (index : Int) :
    Except String (List (List Nat)) × DefaultMerkleTree :=
  (GenerateProof H t index, t)

/-- `VerifyProof` as a state transformer: the Go method writes no receiver
field. -/
def VerifyProofOp (H : HashFn) (t : DefaultMerkleTree) (leaf : List Nat)
    (index : Int) (proof : List (List Nat)) (root : List Nat) :
    Bool × DefaultMerkleTree :=
  (VerifyProof H leaf index proof root, t)

/-- The tree built by adding leaves `L₀..Lₙ₋₁` in order to a fresh engine. -/
def buildFromLeaves (H : HashFn) (ls : List (List Nat)) : DefaultMerkleTree :=
  ls.foldl (AddLeaf H) NewDefaultMerkleTree

/-- A degenerate but legal hash capability: constantly `[0]`. -/
def constH : HashFn := fun _ => [0]

/-- The identity function as a hash capability, used for concrete witnesses. -/
def idH : HashFn := fun l => l

/-- Modelled from the spec's words for comparison with `verifyAux` (claim C5,
§4.1 `verifyProof`): combine with each sibling — current hash on the left
when the index is even, on the right when odd — then halve the index with
*floor* division, as the claim states it. -/
def floorVerifyAux (H : HashFn) (hash : List Nat) (index : Int) :
    List (List Nat) → List Nat
  | [] => hash
  | sibling :: rest =>
    let combined := if index % 2 = 0 then hash ++ sibling else sibling ++ hash
    floorVerifyAux H (H combined) (index.fdiv 2) rest

/-- The claim-C5 verification predicate with floor halving, modelled from the
spec's words. -/
def floorVerifyProof (H : HashFn) (leaf : List Nat) (index : Int)
    (proof : List (List Nat)) (root : List Nat) : Bool :=
  floorVerifyAux H (H leaf) index proof == root

/-- The spec's verification fold with the halving step amended to truncated
(toward-zero) division; evenness of the index is the mathematical one. -/
def truncVerifyAux (H : HashFn) (hash : List Nat) (index : Int) :
    List (List Nat) → List Nat
  | [] => hash
  | sibling :: rest =>
    let combined := if index % 2 = 0 then hash ++ sibling else sibling ++ hash
    truncVerifyAux H (H combined) (index.tdiv 2) rest

/-- The amended claim-C5 verification predicate: exact byte equality of the
recombined hash with the expected root, truncated halving. -/
def truncVerifyProof (H : HashFn) (leaf : List Nat) (index : Int)
    (proof : List (List Nat)) (root : List Nat) : Bool :=
  truncVerifyAux H (H leaf) index proof == root

/-! ## Basic lemmas about the embedded operations -/

theorem foldl_AddLeaf (H : HashFn) :
    ∀ (ls xs : List (List Nat)),
      List.foldl (AddLeaf H) ⟨xs, buildTree H xs⟩ ls = ⟨xs ++ ls, buildTree H (xs ++ ls)⟩
  | [], xs => by simp
  | l :: ls, xs => by
    have h : AddLeaf H ⟨xs, buildTree H xs⟩ l = ⟨xs ++ [l], buildTree H (xs ++ [l])⟩ := rfl
    simp only [List.foldl_cons, h, foldl_AddLeaf H ls (xs ++ [l]), List.append_assoc,
      List.singleton_append]

/-- The engine reached by adding `ls` in order holds exactly `ls` and the
root `buildTree` computes from `ls`. -/
theorem buildFromLeaves_eq (H : HashFn) (ls : List (List Nat)) :
    buildFromLeaves H ls = ⟨ls, buildTree H ls⟩ := by
  have h0 : NewDefaultMerkleTree = (⟨[], buildTree H []⟩ : DefaultMerkleTree) := rfl
  have h := foldl_AddLeaf H ls []
  simpa [buildFromLeaves, h0] using h

theorem getD_padEven (l : List (List Nat)) (i : Nat) (h : i < l.length) :
    (padEven l).getD i [] = l.getD i [] := by
  unfold padEven
  split
  · simp [List.getD_eq_getElem?_getD, List.getElem?_append_left h]
  · rfl

theorem getD_pairUp (H : HashFn) :
    ∀ (l : List (List Nat)) (k : Nat), 2 * k + 1 < l.length →
      (pairUp H l).getD k [] = H (l.getD (2 * k) [] ++ l.getD (2 * k + 1) [])
  | [], k, h => by simp at h
  | [_], k, h => by simp at h
  | a :: b :: rest, 0, _ => by simp [pairUp]
  | a :: b :: rest, k + 1, h => by
    have h' : 2 * k + 1 < rest.length := by simp at h; omega
    have e1 : 2 * (k + 1) = 2 * k + 1 + 1 := by omega
    rw [e1]
    simp only [pairUp, List.getD_cons_succ]
    exact getD_pairUp H rest k h'

theorem xor_one_eq (n : Nat) : n ^^^ 1 = if n % 2 = 0 then n + 1 else n - 1 := by
  have h1 : (n ^^^ 1) / 2 = n / 2 := by
    rw [Nat.xor_div_two]
    norm_num
  have h2 := @Nat.xor_mod_two_eq_one n 1
  rcases Nat.mod_two_eq_zero_or_one n with h | h
  · have h3 : (n ^^^ 1) % 2 = 1 := by rw [h2]; simp [h]
    rw [if_pos h]
    omega
  · have h3 : (n ^^^ 1) % 2 ≠ 1 := fun hc => (h2.mp hc) (by simp [h])
    rw [if_neg (by omega)]
    omega

/-- Go's `%` on nonnegative `int` operands is `Nat` mod. -/
theorem tmod_two_coe (i : Nat) : (i : Int).tmod 2 = ((i % 2 : Nat) : Int) := rfl

/-- Go's `/` on nonnegative `int` operands is `Nat` division. -/
theorem tdiv_two_coe (i : Nat) : (i : Int).tdiv 2 = ((i / 2 : Nat) : Int) := rfl

theorem xor_one_of_even {n : Nat} (h : n % 2 = 0) : n ^^^ 1 = n + 1 := by
  rw [xor_one_eq, if_pos h]

theorem xor_one_of_odd {n : Nat} (h : n % 2 = 1) : n ^^^ 1 = n - 1 := by
  rw [xor_one_eq, if_neg (by omega)]

/-- Core round-trip invariant: at any level of hashes, folding the proof
generated for position `i` onto the hash at position `i` reconstructs the
root of that level. -/
theorem verifyAux_generateProofAux (H : HashFn) :
    ∀ (n : Nat) (level : List (List Nat)) (i : Nat), level.length ≤ n → i < level.length →
      verifyAux H (level.getD i []) (i : Int) (generateProofAux H level i) =
        buildRootAux H level := by
  intro n
  induction n with
  | zero =>
    intro level i h1 h2
    omega
  | succ n ih =>
    intro level i h1 h2
    rcases level with _ | ⟨a, _ | ⟨b, rest⟩⟩
    · simp at h2
    · have hi : i = 0 := by simp at h2; exact h2
      subst hi
      simp [generateProofAux, verifyAux, buildRootAux]
    · have hpadlen : (padEven (a :: b :: rest)).length =
          (a :: b :: rest).length + (a :: b :: rest).length % 2 := padEven_length _
      have hpadmod : (padEven (a :: b :: rest)).length % 2 = 0 := padEven_length_mod _
      have hnextlen : (pairUp H (padEven (a :: b :: rest))).length =
          ((a :: b :: rest).length + 1) / 2 := pairUp_padEven_length H _
      have hlen2 : 2 ≤ (a :: b :: rest).length := by simp
      have hi' : i < (padEven (a :: b :: rest)).length := by omega
      have hgen : generateProofAux H (a :: b :: rest) i =
          (padEven (a :: b :: rest)).getD (i ^^^ 1) [] ::
            generateProofAux H (pairUp H (padEven (a :: b :: rest))) (i / 2) := by
        simp only [generateProofAux]
      have hroot : buildRootAux H (a :: b :: rest) =
          buildRootAux H (pairUp H (padEven (a :: b :: rest))) := by
        simp only [buildRootAux]
      have hcur : (a :: b :: rest).getD i [] = (padEven (a :: b :: rest)).getD i [] :=
        (getD_padEven _ i h2).symm
      have hih := ih (pairUp H (padEven (a :: b :: rest))) (i / 2) (by omega) (by omega)
      rcases Nat.mod_two_eq_zero_or_one i with hpar | hpar
      · have hcond : (i : Int).tmod 2 = 0 := by
          rw [tmod_two_coe, hpar]; rfl
        have hlt : 2 * (i / 2) + 1 < (padEven (a :: b :: rest)).length := by omega
        have hpair := getD_pairUp H (padEven (a :: b :: rest)) (i / 2) hlt
        rw [hgen, hcur]
        simp only [verifyAux]
        rw [if_pos hcond, tdiv_two_coe]
        have hidx2 : i ^^^ 1 = 2 * (i / 2) + 1 := by rw [xor_one_of_even hpar]; omega
        have e1 : (padEven (a :: b :: rest)).getD i [] =
            (padEven (a :: b :: rest)).getD (2 * (i / 2)) [] := by
          congr 1
          omega
        have e2 : (padEven (a :: b :: rest)).getD (i ^^^ 1) [] =
            (padEven (a :: b :: rest)).getD (2 * (i / 2) + 1) [] := by
          congr 1
        rw [e1, e2, ← hpair, hroot]
        exact hih
      · have hcond : ¬((i : Int).tmod 2 = 0) := by
          rw [tmod_two_coe, hpar]
          decide
        have hlt : 2 * (i / 2) + 1 < (padEven (a :: b :: rest)).length := by omega
        have hpair := getD_pairUp H (padEven (a :: b :: rest)) (i / 2) hlt
        rw [hgen, hcur]
        simp only [verifyAux]
        rw [if_neg hcond, tdiv_two_coe]
        have hidx2 : i ^^^ 1 = 2 * (i / 2) := by rw [xor_one_of_odd hpar]; omega
        have e1 : (padEven (a :: b :: rest)).getD i [] =
            (padEven (a :: b :: rest)).getD (2 * (i / 2) + 1) [] := by
          congr 1
          omega
        have e2 : (padEven (a :: b :: rest)).getD (i ^^^ 1) [] =
            (padEven (a :: b :: rest)).getD (2 * (i / 2)) [] := by
          congr 1
        rw [e1, e2, ← hpair, hroot]
        exact hih

/-- The level loop emits one sibling per halving step: `⌈log₂ n⌉` in all. -/
theorem generateProofAux_length (H : HashFn) :
    ∀ (n : Nat) (level : List (List Nat)) (i : Nat), level.length ≤ n → 1 ≤ level.length →
      (generateProofAux H level i).length = Nat.clog 2 level.length := by
  intro n
  induction n with
  | zero =>
    intro level i h1 h2
    omega
  | succ n ih =>
    intro level i h1 h2
    rcases level with _ | ⟨a, _ | ⟨b, rest⟩⟩
    · simp at h2
    · simp [generateProofAux, Nat.clog_one_right]
    · have hnextlen : (pairUp H (padEven (a :: b :: rest))).length =
          ((a :: b :: rest).length + 1) / 2 := pairUp_padEven_length H _
      have hlen2 : 2 ≤ (a :: b :: rest).length := by simp
      have hih := ih (pairUp H (padEven (a :: b :: rest))) (i / 2) (by omega) (by omega)
      have hgen : generateProofAux H (a :: b :: rest) i =
          (padEven (a :: b :: rest)).getD (i ^^^ 1) [] ::
            generateProofAux H (pairUp H (padEven (a :: b :: rest))) (i / 2) := by
        simp only [generateProofAux]
      rw [hgen, List.length_cons, hih, hnextlen,
        Nat.clog_of_two_le (by norm_num) hlen2]
      congr 2

theorem buildTree_eq_none_iff (H : HashFn) (ls : List (List Nat)) :
    buildTree H ls = none ↔ ls = [] := by
  unfold buildTree
  rcases ls with _ | ⟨x, xs⟩ <;> simp

theorem buildTree_of_ne_nil (H : HashFn) (ls : List (List Nat)) (h : ls ≠ []) :
    buildTree H ls = some (buildRootAux H (ls.map H)) := by
  unfold buildTree
  rcases ls with _ | ⟨x, xs⟩
  · simp at h
  · simp

theorem getD_map (H : HashFn) (ls : List (List Nat)) (i : Nat) (h : i < ls.length) :
    (ls.map H).getD i [] = H (ls.getD i []) := by
  rw [List.getD_eq_getElem?_getD, List.getD_eq_getElem?_getD, List.getElem?_map,
    List.getElem?_eq_getElem h]
  rfl

theorem GenerateProof_ok (H : HashFn) (t : DefaultMerkleTree) (i : Nat)
    (h : i < t.leaves.length) :
    GenerateProof H t (i : Int) = Except.ok (generateProofAux H (t.leaves.map H) i) := by
  unfold GenerateProof
  rw [if_neg (by omega)]
  simp

theorem tmod_two_eq_zero_iff (a : Int) : a.tmod 2 = 0 ↔ a % 2 = 0 := by
  rw [← Int.dvd_iff_tmod_eq_zero, Int.dvd_iff_emod_eq_zero]

/-- The code's verification fold agrees everywhere with the spec fold amended
to truncated halving. -/
theorem verifyAux_eq_truncVerifyAux (H : HashFn) :
    ∀ (proof : List (List Nat)) (hash : List Nat) (index : Int),
      verifyAux H hash index proof = truncVerifyAux H hash index proof
  | [], _, _ => rfl
  | s :: rest, hash, index => by
    simp only [verifyAux, truncVerifyAux]
    by_cases hc : index % 2 = 0
    · rw [if_pos ((tmod_two_eq_zero_iff index).mpr hc), if_pos hc]
      exact verifyAux_eq_truncVerifyAux H rest _ _
    · rw [if_neg (fun hh => hc ((tmod_two_eq_zero_iff index).mp hh)), if_neg hc]
      exact verifyAux_eq_truncVerifyAux H rest _ _

/-! ## The claims -/

/-- C1: for every tree built by adding leaves `L₀..Lₙ₋₁` (`n ≥ 1`) and every
valid index `i < n`, `VerifyProof (L i) i (GenerateProof i) (Root)` returns
`true`. -/
theorem round_trip (H : HashFn) (leaves : List (List Nat)) (i : Nat)
    (hi : i < leaves.length) :
    ∃ p r, GenerateProof H (buildFromLeaves H leaves) (i : Int) = Except.ok p ∧
      Root (buildFromLeaves H leaves) = some r ∧
      VerifyProof H (leaves.getD i []) (i : Int) p r = true := by
  have hne : leaves ≠ [] := by rintro rfl; simp at hi
  rw [buildFromLeaves_eq]
  refine ⟨generateProofAux H (leaves.map H) i, buildRootAux H (leaves.map H), ?_, ?_, ?_⟩
  · exact GenerateProof_ok H ⟨leaves, buildTree H leaves⟩ i hi
  · simpa [Root] using buildTree_of_ne_nil H leaves hne
  · unfold VerifyProof
    rw [← getD_map H leaves i hi,
      verifyAux_generateProofAux H (leaves.map H).length (leaves.map H) i le_rfl
        (by simpa using hi)]
    simp

theorem round_trip_witness :
    ∃ p r,
      GenerateProof idH (buildFromLeaves idH [[1], [2], [3]]) ((1 : Nat) : Int) =
        Except.ok p ∧
      Root (buildFromLeaves idH [[1], [2], [3]]) = some r ∧
      VerifyProof idH ([[1], [2], [3]].getD 1 []) ((1 : Nat) : Int) p r = true :=
  round_trip idH [[1], [2], [3]] 1 (by decide)

/-- C2 counterexample: under the (legal, deterministic) constant hash
capability, adding a second leaf leaves the root value unchanged, so an add
does not always change the root. -/
theorem add_may_preserve_root :
    Root (AddLeaf constH (AddLeaf constH NewDefaultMerkleTree []) []) =
      Root (AddLeaf constH NewDefaultMerkleTree []) := by
  simp [Root, AddLeaf, NewDefaultMerkleTree, buildTree, buildRootAux, pairUp, padEven, constH]

/-- C2 (amended): the root is a pure function of the ordered leaf byte
sequences and the supplied hash function, and no operation other than add
ever changes the engine state (hence the root); an add rebuilds the root but
need not change its value. -/
theorem root_pure_and_only_add_mutates (H : HashFn) (ls : List (List Nat))
    (t : DefaultMerkleTree) (leaf : List Nat) (index : Int)
    (proof : List (List Nat)) (r : List Nat) :
    Root (buildFromLeaves H ls) = buildTree H ls ∧
    (RootOp t).2 = t ∧
    (GenerateProofOp H t index).2 = t ∧
    (VerifyProofOp H t leaf index proof r).2 = t := by
  refine ⟨?_, rfl, rfl, rfl⟩
  rw [buildFromLeaves_eq]
  rfl

/-- C3: for every tree with `n ≥ 1` leaves and every valid index the
generated proof has exactly `⌈log₂ n⌉` elements (so a single-leaf tree yields
the empty proof, `⌈log₂ 1⌉ = 0`). -/
theorem proof_length_clog (H : HashFn) (leaves : List (List Nat)) (i : Nat)
    (hi : i < leaves.length) :
    ∃ p, GenerateProof H (buildFromLeaves H leaves) (i : Int) = Except.ok p ∧
      p.length = Nat.clog 2 leaves.length := by
  rw [buildFromLeaves_eq]
  refine ⟨generateProofAux H (leaves.map H) i,
    GenerateProof_ok H ⟨leaves, buildTree H leaves⟩ i hi, ?_⟩
  have h := generateProofAux_length H (leaves.map H).length (leaves.map H) i le_rfl
    (by simp only [List.length_map]; omega)
  simpa using h

theorem proof_length_clog_witness :
    ∃ p,
      GenerateProof idH (buildFromLeaves idH [[1], [2], [3], [4], [5]]) ((2 : Nat) : Int) =
        Except.ok p ∧
      p.length = Nat.clog 2 [[1], [2], [3], [4], [5]].length :=
  proof_length_clog idH [[1], [2], [3], [4], [5]] 2 (by decide)

/-- C4: proof generation fails with the index-out-of-range error exactly when
`index < 0` or `index ≥ leafCount` (hence always on an empty tree), succeeds
for every in-range index, and never changes the engine state. -/
theorem generateProof_range_check (H : HashFn) (t : DefaultMerkleTree) (index : Int) :
    (GenerateProofOp H t index).2 = t ∧
    ((∃ e, GenerateProof H t index = Except.error e) ↔
      (index < 0 ∨ (t.leaves.length : Int) ≤ index)) ∧
    ((∃ p, GenerateProof H t index = Except.ok p) ↔
      (0 ≤ index ∧ index < (t.leaves.length : Int))) := by
  refine ⟨rfl, ⟨?_, ?_⟩, ⟨?_, ?_⟩⟩
  · rintro ⟨e, he⟩
    by_contra hc
    unfold GenerateProof at he
    rw [if_neg hc] at he
    exact Except.noConfusion he
  · intro hc
    exact ⟨"index out of bounds", by unfold GenerateProof; rw [if_pos hc]⟩
  · rintro ⟨p, hp⟩
    by_cases hc : index < 0 ∨ (t.leaves.length : Int) ≤ index
    · unfold GenerateProof at hp
      rw [if_pos hc] at hp
      exact Except.noConfusion hp
    · push_neg at hc
      exact ⟨hc.1, hc.2⟩
  · intro hc
    exact ⟨generateProofAux H (t.leaves.map H) index.toNat,
      by unfold GenerateProof; rw [if_neg (by omega)]⟩

/-- C5 counterexample: at index `-1` with a two-element proof, the code's
truncated halving (Go's `/` rounds toward zero, so `-1 / 2 = 0`) diverges
from the claim's floor halving (`⌊-1/2⌋ = -1`): `VerifyProof` accepts a root
the claimed algorithm rejects. -/
theorem verify_floor_div_cex :
    VerifyProof idH [1] (-1) [[2], [3]] [2, 1, 3] = true ∧
    floorVerifyProof idH [1] (-1) [[2], [3]] [2, 1, 3] = false := by
  constructor <;> rfl

/-- C5 (amended): `VerifyProof` starts from `H leaf`, combines with each
sibling in order — current hash on the left exactly when the index is even —
halves the index by *truncated (toward-zero)* division each step, and finally
returns exact byte-for-byte equality with the expected root; it is a total
function, so malformed input yields `false`, never an exception. -/
theorem verify_trunc_semantics (H : HashFn) (leaf : List Nat) (index : Int)
    (proof : List (List Nat)) (r : List Nat) :
    VerifyProof H leaf index proof r = truncVerifyProof H leaf index proof r ∧
    (VerifyProof H leaf index proof r = true ↔ verifyAux H (H leaf) index proof = r) := by
  constructor
  · unfold VerifyProof truncVerifyProof
    rw [verifyAux_eq_truncVerifyAux H proof (H leaf) index]
  · unfold VerifyProof
    exact beq_iff_eq

/-- C6: a tree with exactly one leaf `L` has root `H L`, empty proof at
index `0`, and `VerifyProof L 0 [] (H L)` holds. -/
theorem single_leaf_identity (H : HashFn) (L : List Nat) :
    Root (AddLeaf H NewDefaultMerkleTree L) = some (H L) ∧
    GenerateProof H (AddLeaf H NewDefaultMerkleTree L) 0 = Except.ok [] ∧
    VerifyProof H L 0 [] (H L) = true := by
  refine ⟨?_, ?_, ?_⟩
  · simp [Root, AddLeaf, NewDefaultMerkleTree, buildTree, buildRootAux]
  · unfold GenerateProof
    rw [if_neg (by simp [AddLeaf, NewDefaultMerkleTree])]
    simp [AddLeaf, NewDefaultMerkleTree, generateProofAux]
  · simp [VerifyProof, verifyAux]

/-- C7: for every hash function and leaves `a b c`, the 3-leaf tree and the
4-leaf tree whose 4th leaf duplicates the 3rd produce the same root: odd
levels duplicate their last node, which pairs identically to an explicit
duplicate. -/
theorem odd_leaf_duplication (H : HashFn) (a b c : List Nat) :
    Root (buildFromLeaves H [a, b, c]) = Root (buildFromLeaves H [a, b, c, c]) := by
  rw [buildFromLeaves_eq, buildFromLeaves_eq]
  show buildTree H [a, b, c] = buildTree H [a, b, c, c]
  simp [buildTree, buildRootAux, pairUp, padEven]

/-- C8: after any add the stored root is rebuilt from the updated leaf list
(so `Root` immediately reflects the new leaf), and on trees built by adds the
root is the explicit absent value `none` exactly when the leaf list is
empty. -/
theorem root_consistency (H : HashFn) (t : DefaultMerkleTree) (d : List Nat)
    (ls : List (List Nat)) :
    (AddLeaf H t d).leaves = t.leaves ++ [d] ∧
    (AddLeaf H t d).root = buildTree H (t.leaves ++ [d]) ∧
    (Root (buildFromLeaves H ls) = none ↔ ls = []) := by
  refine ⟨rfl, rfl, ?_⟩
  rw [buildFromLeaves_eq]
  show buildTree H ls = none ↔ ls = []
  exact buildTree_eq_none_iff H ls

/-- C9: `Root`, `GenerateProof` (any index) and `VerifyProof` (any arguments)
leave the engine state — leaf list and stored root — unchanged. -/
theorem queries_leave_state (H : HashFn) (t : DefaultMerkleTree) (leaf : List Nat)
    (index : Int) (proof : List (List Nat)) (r : List Nat) :
    (RootOp t).2 = t ∧
    (GenerateProofOp H t index).2 = t ∧
    (VerifyProofOp H t leaf index proof r).2 = t :=
  ⟨rfl, rfl, rfl⟩

/-- C10: with an empty proof, `VerifyProof` ignores the index entirely — for
every leaf, every index (negative or out of range) and every expected root it
returns `true` exactly when `H leaf` equals the expected root. -/
theorem verify_ignores_index_on_empty_proof (H : HashFn) (leaf : List Nat)
    (index : Int) (r : List Nat) :
    VerifyProof H leaf index [] r = true ↔ H leaf = r := by
  unfold VerifyProof verifyAux
  exact beq_iff_eq

end Merkle
